import Mathlib

/-!
Verification of the podcast-cli pipeline core against its specification.

Strings are modelled as `List Char`; integer results of Python `str.rfind`
(which uses -1 for "absent") are modelled as `Int`.  Python float comparisons
of the form `i > n * 0.5` with integer `i` and `n` are exact for all sizes
that occur here (`n * 0.5` is exactly representable for `n < 2 ^ 53`), so they
are modelled as the rational comparison `2 * i > n` over `Int`.
-/

namespace Podcast

/-- The ASCII whitespace characters removed by Python `str.strip()`. -/
def isSpace (c : Char) : Bool :=
  c = ' ' ∨ c = '\t' ∨ c = '\n' ∨ c = '\x0b' ∨ c = '\x0c' ∨ c = '\r'

/-- Drop the characters satisfying `p` from both ends of a list
(Python `str.strip` / `str.strip('_')`). -/
def dropAround (p : Char → Bool) (s : List Char) : List Char :=
  ((s.dropWhile p).reverse.dropWhile p).reverse

/-- Python `str.strip()` with no argument: trim surrounding whitespace. -/
def pyStrip (s : List Char) : List Char :=
  dropAround isSpace s

/-- `s.rfind(a)` for a one-character needle: index of the last occurrence
of `a` in `s`, `-1` when absent. -/
def rfind1 (a : Char) : List Char → Int
  | [] => -1
  | c :: rest =>
    let r := rfind1 a rest
    if 0 ≤ r then r + 1
    else if c = a then 0 else -1

/-- `s.rfind(ab)` for a two-character needle: index of the start of the last
occurrence of the substring `a, b` in `s`, `-1` when absent. -/
def rfind2 (a b : Char) : List Char → Int
  | [] => -1
  | c :: rest =>
    let r := rfind2 a b rest
    if 0 ≤ r then r + 1
    else if c = a ∧ rest.head? = some b then 0 else -1

/-- `split_point = max(chunk.rfind(". "), chunk.rfind("\n"))`
from `audio_utils.chunk_text`. -/
def splitPoint (chunk : List Char) : Int :=
  max (rfind2 '.' ' ' chunk) (rfind1 '\n' chunk)

/-- One iteration of the split-point selection in `audio_utils.chunk_text`
(lines 39-50): the untrimmed chunk consumed from `remaining` in one pass of
the loop.  `chunk = remaining[:chunk_size]`; if the split point is past the
midpoint of the window, `chunk = remaining[:split_point + 1]`. -/
def chunk_window (remaining : List Char) (chunk_size : Nat) : List Char :=
  if 2 * splitPoint (remaining.take chunk_size) > (chunk_size : Int) then
    remaining.take ((splitPoint (remaining.take chunk_size)).toNat + 1)
  else remaining.take chunk_size

/-- The `while remaining:` loop of `audio_utils.chunk_text`, with explicit
fuel.  The Python loop consumes at least one character per iteration whenever
`chunk_size ≥ 1`, so fuel `text.length + 1` is enough; for `chunk_size = 0`
the Python loop does not terminate. -/
def chunkLoop (chunk_size : Nat) : Nat → List Char → List (List Char)
  | 0, _ => []
  | _, [] => []
  | fuel + 1, remaining =>
    if remaining.length ≤ chunk_size then [remaining]
    else
      let chunk := chunk_window remaining chunk_size
      pyStrip chunk :: chunkLoop chunk_size fuel (pyStrip (remaining.drop chunk.length))

/-- `config.CHUNK_SIZE`: maximum characters per TTS request. -/
def CHUNK_SIZE : Nat := 5000

/-- `config.PREVIEW_CHAR_COUNT`: characters used for preview generation. -/
def PREVIEW_CHAR_COUNT : Nat := 500

/-- `audio_utils.chunk_text(text, chunk_size)`. -/
def chunk_text (text : List Char) (chunk_size : Nat) : List (List Char) :=
  if text.length ≤ chunk_size then [text]
  else chunkLoop chunk_size (text.length + 1) text

/-- "Concatenating the chunks with single spaces": the joining operation that
the content-preservation law of the specification applies to the chunks. -/
def joinWithSpaces : List (List Char) → List Char
  | [] => []
  | [c] => c
  | c :: rest => c ++ ' ' :: joinWithSpaces rest

/-- "Deleting all whitespace characters" from a text. -/
def removeWs (s : List Char) : List Char :=
  s.filter fun c => !(isSpace c)

example : chunk_text "ab. cd. ef. gh".toList 8 =
    ["ab. cd.".toList, "ef. gh".toList] := by decide

example : chunk_text "abcdefg".toList 3 =
    ["abc".toList, "def".toList, ['g']] := by decide

example : chunk_text "".toList 5 = [[]] := by decide

example : removeWs (joinWithSpaces (chunk_text "ab. cd. ef. gh".toList 8)) =
    removeWs "ab. cd. ef. gh".toList := by decide

/-! ## Topic cache (`cache.py`) -/

/-- The ASCII fragment of Python `str.lower()`: map `A`-`Z` (codes 65-90) to
`a`-`z` by adding 32, leave everything else unchanged.  Python's `lower` is
Unicode-aware and not one-to-one on all of Unicode (U+0130 expands to two
characters); `pyLowerStr` below extends this map faithfully to that case,
and `pyLower` is used only where the characters are ASCII. -/
def pyLower (c : Char) : Char :=
  if 65 ≤ c.toNat ∧ c.toNat ≤ 90 then Char.ofNat (c.toNat + 32) else c

/-- The ASCII fragment of Python regex `\w`: upper- and lower-case letters,
digits, underscore.  Python's `\w` is Unicode-aware (alphanumerics per the
Unicode database, plus underscore); `isWordCharU` below extends this
predicate to the non-ASCII characters the proofs need. -/
def isWordChar (c : Char) : Bool :=
  (65 ≤ c.toNat ∧ c.toNat ≤ 90) ∨ (97 ≤ c.toNat ∧ c.toNat ≤ 122) ∨
  (48 ≤ c.toNat ∧ c.toNat ≤ 57) ∨ c.toNat = 95

/-- `re.sub(r'[^\w\-]', '_', topic)`: replace every character that is neither
a word character nor a hyphen by an underscore. -/
def subNonWord (s : List Char) : List Char :=
  s.map fun c => if isWordChar c ∨ c = '-' then c else '_'

/-- `re.sub(r'_+', '_', s)`: collapse each maximal run of underscores to a
single underscore (the last underscore of each run is kept). -/
def collapseUnderscores : List Char → List Char
  | [] => []
  | [c] => [c]
  | a :: b :: rest =>
    if a = '_' ∧ b = '_' then collapseUnderscores (b :: rest)
    else a :: collapseUnderscores (b :: rest)

/-- `cache._normalize_filename(topic)` over the ASCII character fragment:
replace non-word/non-hyphen characters by underscores, collapse underscore
runs, strip leading/trailing underscores, lower-case.  It agrees with the
Python function on all-ASCII topics; `normalize_filename_u` below extends
the character model to the Unicode case where the two diverge. -/
def normalize_filename (topic : List Char) : List Char :=
  (dropAround (· = '_') (collapseUnderscores (subNonWord topic))).map pyLower

example : normalize_filename "Mac & Cheese".toList = "mac_cheese".toList := by decide
example : normalize_filename "  Cornbread!  ".toList = "cornbread".toList := by decide

/-- Python regex `\w` on the extended character fragment: the ASCII word
characters together with U+0130 (LATIN CAPITAL LETTER I WITH DOT ABOVE,
alphabetic, hence a word character).  U+0307 (COMBINING DOT ABOVE, category
Mn, not alphanumeric) is deliberately not a word character, as in Python. -/
def isWordCharU (c : Char) : Bool :=
  isWordChar c ∨ c.toNat = 304

/-- `re.sub(r'[^\w\-]', '_', topic)` under the extended character model. -/
def subNonWordU (s : List Char) : List Char :=
  s.map fun c => if isWordCharU c ∨ c = '-' then c else '_'

/-- Python `str.lower()` as a one-to-many map, faithful on ASCII and on
U+0130: the lower case of U+0130 is the two-character sequence `i` followed
by U+0307 COMBINING DOT ABOVE (the one expanding lower mapping relevant
here); every other modelled character lowers one-to-one. -/
def pyLowerStr (c : Char) : List Char :=
  if c.toNat = 304 then ['i', '̇'] else [pyLower c]

/-- `cache._normalize_filename(topic)` under the extended character model:
substitution, collapse and strip as before, then the one-to-many
`str.lower()`. -/
def normalize_filename_u (topic : List Char) : List Char :=
  (dropAround (· = '_') (collapseUnderscores (subNonWordU topic))).flatMap pyLowerStr

example : normalize_filename_u "Mac & Cheese".toList = "mac_cheese".toList := by decide
example : normalize_filename_u ['İ'] = ['i', '̇'] := by decide
example : normalize_filename_u ['i', '̇'] = ['i'] := by decide

/-- The cache directory, modelled as an association list from file key to the
stored character content; a `save` shadows any earlier entry for the key
(whole-file replace). -/
def CacheStore := List (String × List Char)

/-- `cache.save_to_cache(topic, text)`: write `text` under the normalized
key.  On POSIX, `Path.write_text(text, encoding='utf-8')` opened in text mode
writes the characters unchanged (`os.linesep` is a bare newline). -/
def save_to_cache (store : CacheStore) (topic text : List Char) : CacheStore :=
  (String.mk (normalize_filename topic), text) :: store

/-- The universal-newline translation performed by `Path.read_text`, whose
underlying `open` uses text mode with `newline=None`: each CR LF pair and each
lone CR in the stored file is returned as a single LF. -/
def universalNewlines : List Char → List Char
  | [] => []
  | '\r' :: '\n' :: rest => '\n' :: universalNewlines rest
  | '\r' :: rest => '\n' :: universalNewlines rest
  | c :: rest => c :: universalNewlines rest

/-- `cache.load_from_cache(topic)`: raise `ValueError` when the normalized
key has no entry, otherwise return the stored text as read back by
`Path.read_text` (universal-newline mode). -/
def load_from_cache (store : CacheStore) (topic : List Char) : Except String (List Char) :=
  match (List.lookup (String.mk (normalize_filename topic)) store : Option (List Char)) with
  | none => .error "not cached"
  | some raw => .ok (universalNewlines raw)

example : load_from_cache (save_to_cache [] "Cornbread".toList "hello é".toList)
    "Cornbread".toList = .ok "hello é".toList := rfl
example : load_from_cache (save_to_cache [] "T".toList ['a', '\r', 'b'])
    "T".toList = .ok ['a', '\n', 'b'] := rfl

/-! ## Audio persistence (`audio_utils.py`) -/

/-- The `safe_topic` filename stem computed by `audio_utils.save_audio` when
no explicit output path is given:
`topic.lower().replace(" ", "_").replace("/", "_")`. -/
def safe_topic (topic : List Char) : List Char :=
  ((topic.map pyLower).map fun c => if c = ' ' then '_' else c).map
    fun c => if c = '/' then '_' else c

example : safe_topic "Test Topic".toList = "test_topic".toList := by decide

/-! ## TTS client (`tts_client.py`) -/

/-- The preview-text selection inside `tts_client.generate_preview`
(lines 89-94): take the first `char_count` characters, and when the last
period lies past the midpoint of that window, trim to just after it. -/
def generate_preview_text (text : List Char) (char_count : Nat) : List Char :=
  let p := text.take char_count
  let lp := rfind1 '.' p
  if 2 * lp > (char_count : Int) then p.take (lp.toNat + 1) else p

/-- Usage events appended to the ledger by one `tts_client.generate_audio`
call: the function never calls `log_elevenlabs_usage`, so it records none.
(Its callers in `main.py` additionally pass `context=`/`topic=` keyword
arguments that its signature `generate_audio(text, voice_id=None)` does not
accept.) -/
def generate_audio_events : Nat := 0

/-! ## Usage ledger (`usage_logger.py`)

A line of `usage.jsonl` is either blank (skipped by `if not line.strip()`),
malformed (in which case `json.loads(line)` raises, modelled by the
`malformed` constructor and an `Except.error` result), or a parsed event
object.  Costs are modelled as exact rationals. -/

/-- A parsed usage-log entry; optional fields mirror `entry.get(...)`. -/
structure Entry where
  service : String
  total_tokens : Option Nat
  characters : Option Nat
  cost_usd : Option ℚ
  context : Option String
  topic : Option String
deriving DecidableEq

/-- One physical line of the usage log. -/
inductive LogLine where
  | blank
  | malformed (raw : String)
  | event (e : Entry)

/-- `round(x, 4)`: Python rounds half to even. -/
def roundHalfEven (q : ℚ) : ℤ :=
  if q - ⌊q⌋ < 1 / 2 then ⌊q⌋
  else if q - ⌊q⌋ > 1 / 2 then ⌊q⌋ + 1
  else if ⌊q⌋ % 2 = 0 then ⌊q⌋ else ⌊q⌋ + 1

/-- `round(x, 4)` over exact rationals. -/
def round4 (q : ℚ) : ℚ :=
  (roundHalfEven (q * 10000) : ℚ) / 10000

/-- The filter `if context and entry.get("context") != context: continue`
in `get_usage_summary`: an entry is skipped exactly when the filter string is
truthy (present and non-empty) and differs from the entry's context. -/
def contextSkip (filter : Option String) (e : Entry) : Bool :=
  match filter with
  | none => false
  | some c => ¬ c = "" ∧ ¬ e.context = some c

/-- Running totals of `get_usage_summary` before final rounding. -/
structure SummaryAcc where
  openai_tokens : Nat
  openai_cost : ℚ
  openai_calls : Nat
  elevenlabs_chars : Nat
  elevenlabs_cost : ℚ
  elevenlabs_calls : Nat
deriving DecidableEq

/-- Processing of one parsed entry in `get_usage_summary`: events whose
service is neither "openai" nor "elevenlabs" fall through both branches. -/
def summaryStep (filter : Option String) (acc : SummaryAcc) (e : Entry) : SummaryAcc :=
  if contextSkip filter e then acc
  else if e.service = "openai" then
    { acc with
      openai_tokens := acc.openai_tokens + e.total_tokens.getD 0
      openai_cost := acc.openai_cost + e.cost_usd.getD 0
      openai_calls := acc.openai_calls + 1 }
  else if e.service = "elevenlabs" then
    { acc with
      elevenlabs_chars := acc.elevenlabs_chars + e.characters.getD 0
      elevenlabs_cost := acc.elevenlabs_cost + e.cost_usd.getD 0
      elevenlabs_calls := acc.elevenlabs_calls + 1 }
  else acc

/-- The line-reading loop of `get_usage_summary`: blank lines are skipped,
a malformed line raises out of the whole aggregation. -/
def summaryLoop (filter : Option String) (acc : SummaryAcc) :
    List LogLine → Except String SummaryAcc
  | [] => .ok acc
  | .blank :: rest => summaryLoop filter acc rest
  | .malformed raw :: _ => .error raw
  | .event e :: rest => summaryLoop filter (summaryStep filter acc e) rest

/-- The summary returned by `get_usage_summary`. -/
structure Summary where
  openai_total_tokens : Nat
  openai_total_cost_usd : ℚ
  openai_calls : Nat
  elevenlabs_total_characters : Nat
  elevenlabs_total_cost_usd : ℚ
  elevenlabs_calls : Nat
  total_cost_usd : ℚ
deriving DecidableEq

/-- The all-zero summary returned for a missing log file. -/
def zeroSummary : Summary := ⟨0, 0, 0, 0, 0, 0, 0⟩

/-- `usage_logger.get_usage_summary(context)`; the log file is `none` when
missing, otherwise its list of lines. -/
def get_usage_summary (filter : Option String) (file : Option (List LogLine)) :
    Except String Summary :=
  match file with
  | none => .ok zeroSummary
  | some lines =>
    (summaryLoop filter ⟨0, 0, 0, 0, 0, 0⟩ lines).map fun acc =>
      ⟨acc.openai_tokens, round4 acc.openai_cost, acc.openai_calls,
       acc.elevenlabs_chars, round4 acc.elevenlabs_cost, acc.elevenlabs_calls,
       round4 (acc.openai_cost + acc.elevenlabs_cost)⟩

/-- Per-topic cost totals in `get_usage_by_topic`. -/
structure TopicCosts where
  openai_cost : ℚ
  elevenlabs_cost : ℚ
  total_cost : ℚ
deriving DecidableEq

/-- `entry.get("topic") or "unknown"`: `None` and the empty string are both
falsy in Python. -/
def topicKey (e : Entry) : String :=
  match e.topic with
  | none => "unknown"
  | some t => if t = "" then "unknown" else t

/-- Update the dict entry for `key` (insertion order preserved; a missing key
is initialised to zeros first, as in `get_usage_by_topic`). -/
def updateTopic (topics : List (String × TopicCosts)) (key : String)
    (f : TopicCosts → TopicCosts) : List (String × TopicCosts) :=
  match topics with
  | [] => [(key, f ⟨0, 0, 0⟩)]
  | (k, v) :: rest =>
    if k = key then (k, f v) :: rest else (k, v) :: updateTopic rest key f

/-- Processing of one parsed entry in `get_usage_by_topic`: the service
dispatch is `if service == "openai" ... else ...`, so every non-openai event
(whatever its service) is added to `elevenlabs_cost`, and every event to
`total_cost`. -/
def topicStep (topics : List (String × TopicCosts)) (e : Entry) :
    List (String × TopicCosts) :=
  let cost := e.cost_usd.getD 0
  updateTopic topics (topicKey e) fun tc =>
    if e.service = "openai" then
      ⟨tc.openai_cost + cost, tc.elevenlabs_cost, tc.total_cost + cost⟩
    else
      ⟨tc.openai_cost, tc.elevenlabs_cost + cost, tc.total_cost + cost⟩

/-- The line-reading loop of `get_usage_by_topic`. -/
def topicLoop (topics : List (String × TopicCosts)) :
    List LogLine → Except String (List (String × TopicCosts))
  | [] => .ok topics
  | .blank :: rest => topicLoop topics rest
  | .malformed raw :: _ => .error raw
  | .event e :: rest => topicLoop (topicStep topics e) rest

/-- `usage_logger.get_usage_by_topic()`: aggregated costs per topic, each
value rounded to four decimal places at the end. -/
def get_usage_by_topic (file : Option (List LogLine)) :
    Except String (List (String × TopicCosts)) :=
  match file with
  | none => .ok []
  | some lines =>
    (topicLoop [] lines).map fun ts =>
      ts.map fun kv =>
        (kv.1, ⟨round4 kv.2.openai_cost, round4 kv.2.elevenlabs_cost,
                round4 kv.2.total_cost⟩)

/-- The grand total over a `get_usage_by_topic` result: the sum of the
`total_cost` values of all topics. -/
def sumTopicTotals (ts : List (String × TopicCosts)) : ℚ :=
  (ts.map fun kv => kv.2.total_cost).sum

/-! ## Pipeline orchestrator (`main.py`)

The orchestrator is modelled as a function of the external world (knowledge
source, normalizer, synthesis-provider balance) and the run flags, returning
the externally visible effects of the run: usage events written, TTS calls
issued, files written, and the exit condition. -/

/-- Results supplied by the external collaborators during one run. -/
structure ExtWorld where
  pageExists : Bool
  /-- Output of `text_processor.preprocess_text` on the fetched article. -/
  normalizedText : List Char
  /-- `int(get_account_balance())`; the provider reports whole characters. -/
  balance : Int

/-- The CLI flags and interactive input that steer one run. -/
structure RunArgs where
  auto : Bool
  previewOnly : Bool
  cacheOnly : Bool
  /-- The confirmation reply was "y". -/
  confirmYes : Bool
  /-- Cache content for `--from-cache` (`none` when the topic is not cached). -/
  cachedText : Option (List Char)

/-- How a run ends. -/
inductive RunExit where
  | pageNotFound
  | notCached
  | cacheOnlyDone
  | insufficientBalance (shortfall : Int)
  | previewOnlyDone
  | cancelled
  | completed
deriving DecidableEq

/-- The externally visible effects of one run. -/
structure RunTrace where
  openaiEvents : Nat
  elevenlabsEvents : Nat
  ttsCalls : Nat
  previewFiles : Nat
  cacheWrites : Nat
  outputFiles : Nat
  exit : RunExit
deriving DecidableEq

/-- Steps 4-7 of `main.py` (shared by the fresh and the from-cache paths):
balance check, optional preview and confirmation, chunked synthesis,
concatenation, save. -/
def ttsStage (args : RunArgs) (w : ExtWorld) (text : List Char)
    (openaiEvents cacheWrites : Nat) : RunTrace :=
  let required : Int := text.length
  if required ≤ w.balance then
    let previewCalls := if args.auto then 0 else 1
    if ¬ args.auto ∧ args.previewOnly then
      ⟨openaiEvents, previewCalls * generate_audio_events, previewCalls,
       previewCalls, cacheWrites, 0, .previewOnlyDone⟩
    else if ¬ args.auto ∧ ¬ args.confirmYes then
      ⟨openaiEvents, previewCalls * generate_audio_events, previewCalls,
       previewCalls, cacheWrites, 0, .cancelled⟩
    else
      let chunks := chunk_text text CHUNK_SIZE
      ⟨openaiEvents,
       previewCalls * generate_audio_events + chunks.length * generate_audio_events,
       previewCalls + chunks.length, previewCalls, cacheWrites, 1, .completed⟩
  else
    ⟨openaiEvents, 0, 0, 0, cacheWrites, 0,
     .insufficientBalance (required - w.balance)⟩

/-- The `--from-cache` path of `main.py` (lines 64-124). -/
def runFromCache (args : RunArgs) (w : ExtWorld) : RunTrace :=
  match args.cachedText with
  | none => ⟨0, 0, 0, 0, 0, 0, .notCached⟩
  | some text => ttsStage args w text 0 0

/-- The fresh path of `main.py` (lines 126-200): existence check, fetch,
preprocess (which records exactly one openai usage event), optional
`--cache-only` early exit, then the TTS stage. -/
def runFresh (args : RunArgs) (w : ExtWorld) : RunTrace :=
  if ¬ w.pageExists then ⟨0, 0, 0, 0, 0, 0, .pageNotFound⟩
  else if args.cacheOnly then ⟨1, 0, 0, 0, 1, 0, .cacheOnlyDone⟩
  else ttsStage args w w.normalizedText 1 0

example :
    runFresh ⟨true, false, false, false, none⟩ ⟨true, "Hello. world".toList, 5⟩ =
      ⟨1, 0, 0, 0, 0, 0, .insufficientBalance 7⟩ := by decide

example :
    (runFresh ⟨true, false, false, false, none⟩
      ⟨true, "Hello. world".toList, 100⟩).elevenlabsEvents = 0 := by decide

/-! ## Helper lemmas -/

theorem round4_zero : round4 0 = 0 := by
  norm_num [round4, roundHalfEven]

theorem char_eq_of_toNat_eq {c d : Char} (h : c.toNat = d.toNat) : c = d := by
  apply Char.eq_of_val_eq
  exact UInt32.ext h

theorem char_eq_iff_toNat {c d : Char} : c = d ↔ c.toNat = d.toNat :=
  ⟨fun h => h ▸ rfl, char_eq_of_toNat_eq⟩

theorem toNat_ofNat_of_lt {n : Nat} (h : n < 55296) : (Char.ofNat n).toNat = n := by
  have hv : n.isValidChar := Or.inl h
  simp [Char.ofNat, hv, Char.ofNatAux, Char.toNat, UInt32.toNat, BitVec.toNat_ofNatLt]

theorem pyLower_toNat (c : Char) :
    (pyLower c).toNat =
      if 65 ≤ c.toNat ∧ c.toNat ≤ 90 then c.toNat + 32 else c.toNat := by
  unfold pyLower
  split
  · rename_i h
    exact toNat_ofNat_of_lt (by omega)
  · rfl

theorem pyLower_idem (c : Char) : pyLower (pyLower c) = pyLower c := by
  apply char_eq_of_toNat_eq
  have h1 := pyLower_toNat c
  have h2 := pyLower_toNat (pyLower c)
  rw [h1] at h2
  rw [h2, h1]
  split_ifs <;> omega

theorem rfind1_nil (a : Char) : rfind1 a [] = -1 := rfl

theorem rfind1_cons (a c : Char) (s : List Char) :
    rfind1 a (c :: s) =
      if 0 ≤ rfind1 a s then rfind1 a s + 1 else if c = a then 0 else -1 := rfl

theorem rfind2_nil (a b : Char) : rfind2 a b [] = -1 := rfl

theorem rfind2_cons (a b c : Char) (s : List Char) :
    rfind2 a b (c :: s) =
      if 0 ≤ rfind2 a b s then rfind2 a b s + 1
      else if c = a ∧ s.head? = some b then 0 else -1 := rfl

theorem neg_one_le_rfind1 (a : Char) (s : List Char) : -1 ≤ rfind1 a s := by
  induction s with
  | nil => simp [rfind1]
  | cons c rest ih =>
    simp only [rfind1]
    split
    · omega
    · split <;> omega

theorem rfind1_of_not_mem {a : Char} {s : List Char} (h : a ∉ s) : rfind1 a s = -1 := by
  induction s with
  | nil => rfl
  | cons c rest ih =>
    have hc : ¬ c = a := fun hca => h (hca ▸ List.mem_cons_self c rest)
    have hr : a ∉ rest := fun hm => h (List.mem_cons_of_mem c hm)
    simp [rfind1, ih hr, hc]

theorem rfind1_append (a : Char) (s t : List Char) :
    rfind1 a (s ++ t) =
      if 0 ≤ rfind1 a t then (s.length : Int) + rfind1 a t else rfind1 a s := by
  induction s with
  | nil =>
    have h := neg_one_le_rfind1 a t
    simp only [List.nil_append, List.length_nil, Nat.cast_zero, zero_add, rfind1_nil]
    split <;> omega
  | cons c s ih =>
    have h1 := neg_one_le_rfind1 a t
    have h2 := neg_one_le_rfind1 a s
    rw [List.cons_append, rfind1_cons, rfind1_cons, ih]
    simp only [List.length_cons]
    push_cast
    split_ifs <;> omega

theorem rfind2_of_snd_not_mem {b : Char} (a : Char) {s : List Char} (h : b ∉ s) :
    rfind2 a b s = -1 := by
  induction s with
  | nil => rfl
  | cons c rest ih =>
    have hr : b ∉ rest := fun hm => h (List.mem_cons_of_mem c hm)
    have hc : ¬ (c = a ∧ rest.head? = some b) := by
      rintro ⟨-, hh⟩
      cases rest with
      | nil => simp at hh
      | cons d r =>
        simp only [List.head?_cons, Option.some.injEq] at hh
        exact hr (hh ▸ List.mem_cons_self d r)
    simp [rfind2, ih hr, hc]

theorem rfind1_lt_length (a : Char) (s : List Char) : rfind1 a s < s.length := by
  induction s with
  | nil => simp [rfind1]
  | cons c rest ih =>
    simp only [rfind1, List.length_cons]
    split
    · push_cast; omega
    · split <;> push_cast <;> omega

theorem rfind2_lt_length (a b : Char) (s : List Char) : rfind2 a b s < s.length := by
  induction s with
  | nil => simp [rfind2]
  | cons c rest ih =>
    simp only [rfind2, List.length_cons]
    split
    · push_cast; omega
    · split <;> push_cast <;> omega

theorem splitPoint_lt_length (s : List Char) : splitPoint s < s.length := by
  have h1 := rfind2_lt_length '.' ' ' s
  have h2 := rfind1_lt_length '\n' s
  simp only [splitPoint]
  omega

theorem chunk_text_length_pos (t : List Char) (cs : Nat) :
    0 < (chunk_text t cs).length := by
  unfold chunk_text
  split
  · simp
  · rename_i h
    match t with
    | [] => simp at h
    | a :: l =>
      simp only [chunkLoop]
      split <;> simp

end Podcast

open Podcast

/-- C2: the claim that `get_usage_summary` and `get_usage_by_topic` never
fail and skip malformed lines is violated by the code: a blank line is
skipped and a missing log yields all-zero totals, but a malformed line makes
`json.loads` raise out of the whole aggregation in both functions. -/
theorem usage_aggregation_fails_on_malformed_line :
    get_usage_summary none (some [.malformed "not json"]) = .error "not json" ∧
    get_usage_by_topic (some [.malformed "not json"]) = .error "not json" ∧
    get_usage_summary none none = .ok zeroSummary ∧
    get_usage_summary none (some [.blank]) = .ok zeroSummary ∧
    get_usage_by_topic (some [.blank]) = .ok [] := by
  refine ⟨rfl, rfl, rfl, ?_, rfl⟩
  simp [get_usage_summary, summaryLoop, zeroSummary, Except.map, round4_zero]

/-- C7 counterexample: the preview prefix of `generate_preview` does not
equal the chunker's split-point selection on the 500-character preview
window.  For 300 `b`s, a period, then 300 more `b`s, the preview trims at the
bare period (301 characters) while the chunker sees no ". " or newline and
hard-cuts at 500. -/
theorem preview_trim_differs_from_chunker :
    generate_preview_text (List.replicate 300 'b' ++ '.' :: List.replicate 300 'b')
        PREVIEW_CHAR_COUNT ≠
      chunk_window (List.replicate 300 'b' ++ '.' :: List.replicate 300 'b')
        PREVIEW_CHAR_COUNT := by
  have hdot : ('.' : Char) ∉ List.replicate 199 'b' := by
    rw [List.mem_replicate]
    rintro ⟨-, h⟩
    exact absurd h (by decide)
  have hsp : (' ' : Char) ∉ List.replicate 300 'b' ++ '.' :: List.replicate 199 'b' := by
    intro hm
    rcases List.mem_append.mp hm with h | h
    · rw [List.mem_replicate] at h
      exact absurd h.2 (by decide)
    · rcases List.mem_cons.mp h with h | h
      · exact absurd h (by decide)
      · rw [List.mem_replicate] at h
        exact absurd h.2 (by decide)
  have hnl : ('\n' : Char) ∉ List.replicate 300 'b' ++ '.' :: List.replicate 199 'b' := by
    intro hm
    rcases List.mem_append.mp hm with h | h
    · rw [List.mem_replicate] at h
      exact absurd h.2 (by decide)
    · rcases List.mem_cons.mp h with h | h
      · exact absurd h (by decide)
      · rw [List.mem_replicate] at h
        exact absurd h.2 (by decide)
  have hw : (List.replicate 300 'b' ++ '.' :: List.replicate 300 'b').take 500
      = List.replicate 300 'b' ++ '.' :: List.replicate 199 'b' := by
    rw [List.take_append_eq_append_take, List.take_replicate, List.length_replicate]
    have h500 : min 500 300 = 300 := by norm_num
    have h200 : (500 - 300 : Nat) = 199 + 1 := by norm_num
    rw [h500, h200, List.take_succ_cons, List.take_replicate]
    have h199 : min 199 300 = 199 := by norm_num
    rw [h199]
  have h1 : rfind1 '.' (List.replicate 300 'b' ++ '.' :: List.replicate 199 'b') = 300 := by
    rw [rfind1_append]
    have ht : rfind1 '.' ('.' :: List.replicate 199 'b') = 0 := by
      rw [rfind1_cons, rfind1_of_not_mem hdot]
      norm_num
    rw [ht, if_pos (by norm_num), List.length_replicate]
    norm_num
  have h2 : rfind2 '.' ' ' (List.replicate 300 'b' ++ '.' :: List.replicate 199 'b') = -1 :=
    rfind2_of_snd_not_mem '.' hsp
  have h3 : rfind1 '\n' (List.replicate 300 'b' ++ '.' :: List.replicate 199 'b') = -1 :=
    rfind1_of_not_mem hnl
  intro heq
  simp only [generate_preview_text, chunk_window, splitPoint, PREVIEW_CHAR_COUNT,
    hw, h1, h2, h3] at heq
  rw [if_pos (by norm_num), if_neg (by norm_num)] at heq
  have hlen := congrArg List.length heq
  simp only [List.length_take, List.length_append, List.length_cons,
    List.length_replicate, Int.toNat_ofNat] at hlen
  omega

/-- C7 amended: `generate_preview` trims the `char_count`-character window at
the last bare period when it lies past the midpoint (ignoring the
period-plus-space and newline boundaries the chunker uses); the preview
prefix equals the chunker's selection whenever the window's last bare period
coincides with the chunker's split point. -/
theorem preview_trim_agrees_when_split_points_agree (text : List Char) (cc : Nat)
    (h : rfind1 '.' (text.take cc) = splitPoint (text.take cc)) :
    generate_preview_text text cc = chunk_window text cc := by
  unfold generate_preview_text chunk_window
  simp only [h]
  split
  · rename_i hgt
    have hlt : splitPoint (text.take cc) < (text.take cc).length :=
      splitPoint_lt_length _
    have hlen : (text.take cc).length ≤ cc := by
      simp [List.length_take]
    have hle : (splitPoint (text.take cc)).toNat + 1 ≤ cc := by omega
    rw [List.take_take]
    congr 1
    omega
  · rfl

/-- C7 witness: a window whose last bare period is also the chunker's split
point, where the two selections coincide. -/
theorem preview_trim_agrees_witness :
    rfind1 '.' ("aaaa. bbb".toList.take 8) = splitPoint ("aaaa. bbb".toList.take 8) ∧
    generate_preview_text "aaaa. bbb".toList 8 = chunk_window "aaaa. bbb".toList 8 :=
  ⟨by decide, preview_trim_agrees_when_split_points_agree _ _ (by decide)⟩

/-- C4: whenever the provider balance is below the character cost of the
text, both the fresh path and the resume-from-cache path abort reporting the
shortfall `required - available`, make no TTS calls, record no synthesis
usage events, and write no output audio file (the fresh path has already
recorded its single normalization usage event). -/
theorem budget_abort_stops_run (args : RunArgs) (w : ExtWorld) (text : List Char)
    (hpage : w.pageExists = true) (hco : args.cacheOnly = false)
    (hfresh : w.balance < (w.normalizedText.length : Int))
    (hcache : args.cachedText = some text)
    (hbal : w.balance < (text.length : Int)) :
    runFresh args w =
      ⟨1, 0, 0, 0, 0, 0, .insufficientBalance ((w.normalizedText.length : Int) - w.balance)⟩ ∧
    runFromCache args w =
      ⟨0, 0, 0, 0, 0, 0, .insufficientBalance ((text.length : Int) - w.balance)⟩ := by
  have h1 : ¬ ((w.normalizedText.length : Int) ≤ w.balance) := by omega
  have h2 : ¬ ((text.length : Int) ≤ w.balance) := by omega
  constructor
  · simp [runFresh, hpage, hco, ttsStage, h1]
  · simp [runFromCache, hcache, ttsStage, h2]

/-- C4 witness: a fresh run needing 6 characters and a cached run needing 5,
with 3 available, abort with shortfalls 3 and 2. -/
theorem budget_abort_stops_run_witness :
    runFresh ⟨true, false, false, false, some "hello".toList⟩ ⟨true, "world!".toList, 3⟩ =
      ⟨1, 0, 0, 0, 0, 0, .insufficientBalance 3⟩ ∧
    runFromCache ⟨true, false, false, false, some "hello".toList⟩ ⟨true, "world!".toList, 3⟩ =
      ⟨0, 0, 0, 0, 0, 0, .insufficientBalance 2⟩ := by
  have h := budget_abort_stops_run
    ⟨true, false, false, false, some "hello".toList⟩
    ⟨true, "world!".toList, 3⟩ "hello".toList rfl rfl (by decide) rfl (by decide)
  simpa using h

/-- C1: contrary to the claim, a run that reaches the synthesis stage records
zero elevenlabs usage events: `main.main` issues one `generate_audio` call
per chunk (at least one chunk), but `tts_client.generate_audio` never calls
`log_elevenlabs_usage`, so no usage event per chunk is written (only the one
normalization event exists). -/
theorem synthesis_records_no_usage_events (args : RunArgs) (w : ExtWorld)
    (hpage : w.pageExists = true) (hco : args.cacheOnly = false)
    (hauto : args.auto = true)
    (hbal : (w.normalizedText.length : Int) ≤ w.balance) :
    (runFresh args w).exit = .completed ∧
    (runFresh args w).openaiEvents = 1 ∧
    (runFresh args w).ttsCalls = (chunk_text w.normalizedText CHUNK_SIZE).length ∧
    (runFresh args w).elevenlabsEvents = 0 ∧
    1 ≤ (chunk_text w.normalizedText CHUNK_SIZE).length := by
  have hpos := chunk_text_length_pos w.normalizedText CHUNK_SIZE
  simp only [runFresh, hpage, hco, Bool.not_true, Bool.false_eq_true, if_false,
    ttsStage, if_pos hbal, hauto, generate_audio_events]
  simp
  omega

/-- C1 witness: a fresh auto run on a short text with ample balance
completes with one chunk, one TTS call, and zero elevenlabs usage events. -/
theorem synthesis_records_no_usage_events_witness :
    (runFresh ⟨true, false, false, false, none⟩ ⟨true, "Hi там.".toList, 100⟩).exit
        = .completed ∧
    (runFresh ⟨true, false, false, false, none⟩ ⟨true, "Hi там.".toList, 100⟩).openaiEvents = 1 ∧
    (runFresh ⟨true, false, false, false, none⟩ ⟨true, "Hi там.".toList, 100⟩).ttsCalls
        = (chunk_text "Hi там.".toList CHUNK_SIZE).length ∧
    (runFresh ⟨true, false, false, false, none⟩ ⟨true, "Hi там.".toList, 100⟩).elevenlabsEvents = 0 ∧
    1 ≤ (chunk_text "Hi там.".toList CHUNK_SIZE).length :=
  synthesis_records_no_usage_events _ _ rfl rfl rfl (by decide)

theorem universalNewlines_cons_ne (c : Char) (rest : List Char) (hc : c ≠ '\r') :
    universalNewlines (c :: rest) = c :: universalNewlines rest := by
  rw [universalNewlines.eq_def]
  split
  · rename_i heq
    simp at heq
  · rename_i heq
    injection heq with h1 h2
    exact absurd h1 hc
  · rename_i h1 h2 heq
    injection heq with h3 h4
    exact absurd h3 hc
  · rename_i heq
    injection heq with h1 h2
    rw [h1, h2]

theorem universalNewlines_of_no_cr (text : List Char) (h : '\r' ∉ text) :
    universalNewlines text = text := by
  induction text with
  | nil => rfl
  | cons c rest ih =>
    have hc : c ≠ '\r' := by
      rintro rfl
      exact h (List.mem_cons_self _ _)
    have hr : '\r' ∉ rest := fun hm => h (List.mem_cons_of_mem _ hm)
    rw [universalNewlines_cons_ne c rest hc, ih hr]

/-- C5 counterexample: the round trip is not exact for every text.  Saving
the three characters `a`, CR, `b` and loading them back yields `a`, LF, `b`:
`Path.read_text` opens the file in universal-newline mode and folds the
carriage return into a line feed. -/
theorem cache_round_trip_not_exact :
    load_from_cache (save_to_cache [] "T".toList ['a', '\r', 'b']) "T".toList ≠
      .ok ['a', '\r', 'b'] := by
  intro h
  have hval : load_from_cache (save_to_cache [] "T".toList ['a', '\r', 'b']) "T".toList
      = .ok ['a', '\n', 'b'] := rfl
  rw [hval] at h
  have hlist : (['a', '\n', 'b'] : List Char) = ['a', '\r', 'b'] := by
    injection h
  have : ('\n' : Char) = '\r' := by
    injection hlist with h1 h2
    injection h2 with h3 h4
  exact absurd this (by decide)

/-- C5 amended: for every cache state, topic string (including non-ASCII
topics) and text, saving and re-loading returns exactly the text provided it
contains no carriage return; texts with CR or CR LF come back with those
folded to LF by the universal-newline read. -/
theorem cache_round_trip (store : CacheStore) (topic text : List Char)
    (h : '\r' ∉ text) :
    load_from_cache (save_to_cache store topic text) topic = .ok text := by
  simp only [load_from_cache, save_to_cache, List.lookup, beq_self_eq_true]
  rw [universalNewlines_of_no_cr text h]

/-- C5 witness: a concrete CR-free round trip through the cache. -/
theorem cache_round_trip_witness :
    ('\r' : Char) ∉ "grüße dich".toList ∧
    load_from_cache (save_to_cache [] "Straße & Co".toList "grüße dich".toList)
      "Straße & Co".toList = .ok "grüße dich".toList :=
  ⟨by decide, cache_round_trip [] _ _ (by decide)⟩

theorem pyLower_eq_underscore_iff (c : Char) : pyLower c = '_' ↔ c = '_' := by
  have h := pyLower_toNat c
  have h95 : ('_' : Char).toNat = 95 := rfl
  simp only [char_eq_iff_toNat, h, h95]
  split_ifs <;> omega

theorem wordHyphen_pyLower {c : Char}
    (h : isWordChar c = true ∨ c = '-') :
    isWordChar (pyLower c) = true ∨ pyLower c = '-' := by
  have hp := pyLower_toNat c
  have h45 : ('-' : Char).toNat = 45 := rfl
  simp only [isWordChar, char_eq_iff_toNat, h45, decide_eq_true_eq] at h ⊢
  rw [hp]
  split_ifs <;> omega

theorem mem_collapseUnderscores {c : Char} :
    ∀ {l : List Char}, c ∈ collapseUnderscores l → c ∈ l := by
  intro l
  induction l with
  | nil => simp [collapseUnderscores]
  | cons a rest ih =>
    cases rest with
    | nil => simp [collapseUnderscores]
    | cons b r =>
      intro h
      by_cases hab : a = '_' ∧ b = '_'
      · rw [collapseUnderscores, if_pos hab] at h
        exact List.mem_cons_of_mem a (ih h)
      · rw [collapseUnderscores, if_neg hab] at h
        rcases List.mem_cons.mp h with h | h
        · exact h ▸ List.mem_cons_self a (b :: r)
        · exact List.mem_cons_of_mem a (ih h)

theorem mem_dropAround {c : Char} {p : Char → Bool} {l : List Char}
    (h : c ∈ dropAround p l) : c ∈ l := by
  unfold dropAround at h
  rw [List.mem_reverse] at h
  have h2 := (List.dropWhile_sublist p).subset h
  rw [List.mem_reverse] at h2
  exact (List.dropWhile_sublist p).subset h2

theorem mem_subNonWord_wordHyphen {c : Char} {s : List Char}
    (h : c ∈ subNonWord s) : isWordChar c = true ∨ c = '-' := by
  unfold subNonWord at h
  rcases List.mem_map.mp h with ⟨d, -, rfl⟩
  by_cases hd : isWordChar d = true ∨ d = '-'
  · rw [if_pos hd]
    exact hd
  · rw [if_neg hd]
    left
    decide

theorem head?_collapseUnderscores :
    ∀ (r : List Char) (b : Char), (collapseUnderscores (b :: r)).head? = some b := by
  intro r
  induction r with
  | nil =>
    intro b
    rfl
  | cons c r2 ih =>
    intro b
    by_cases hbc : b = '_' ∧ c = '_'
    · rw [collapseUnderscores, if_pos hbc, ih c, hbc.1, hbc.2]
    · rw [collapseUnderscores, if_neg hbc]
      rfl

theorem chain_collapseUnderscores :
    ∀ l : List Char,
      List.Chain' (fun a b => ¬(a = '_' ∧ b = '_')) (collapseUnderscores l) := by
  intro l
  induction l with
  | nil => simp [collapseUnderscores]
  | cons a rest ih =>
    cases rest with
    | nil => simp [collapseUnderscores]
    | cons b r =>
      by_cases hab : a = '_' ∧ b = '_'
      · rw [collapseUnderscores, if_pos hab]
        exact ih
      · rw [collapseUnderscores, if_neg hab]
        rw [List.chain'_cons']
        refine ⟨?_, ih⟩
        intro y hy
        rw [head?_collapseUnderscores r b] at hy
        cases hy
        exact hab

theorem collapse_eq_self_of_chain :
    ∀ {l : List Char},
      List.Chain' (fun a b => ¬(a = '_' ∧ b = '_')) l → collapseUnderscores l = l := by
  intro l
  induction l with
  | nil =>
    intro
    rfl
  | cons a rest ih =>
    intro h
    cases rest with
    | nil => rfl
    | cons b r =>
      have h1 := List.chain'_cons.mp h
      rw [collapseUnderscores, if_neg h1.1, ih h1.2]

theorem dropWhile_eq_self_of_head {p : Char → Bool} {l : List Char}
    (h : ∀ c, l.head? = some c → p c = false) : l.dropWhile p = l := by
  cases l with
  | nil => rfl
  | cons a r =>
    rw [List.dropWhile_cons, if_neg]
    rw [h a rfl]
    simp

theorem dropAround_eq_self {p : Char → Bool} {l : List Char}
    (h1 : ∀ c, l.head? = some c → p c = false)
    (h2 : ∀ c, l.getLast? = some c → p c = false) : dropAround p l = l := by
  unfold dropAround
  rw [dropWhile_eq_self_of_head h1]
  rw [dropWhile_eq_self_of_head (fun c hc => h2 c (by rwa [List.head?_reverse] at hc))]
  exact List.reverse_reverse l

theorem head_dropWhile_false {p : Char → Bool} :
    ∀ {l : List Char} {c : Char}, (l.dropWhile p).head? = some c → p c = false := by
  intro l
  induction l with
  | nil =>
    intro c h
    simp at h
  | cons a r ih =>
    intro c h
    rw [List.dropWhile_cons] at h
    by_cases hp : p a = true
    · rw [if_pos hp] at h
      exact ih h
    · rw [if_neg hp] at h
      cases h
      simpa using hp

theorem getLast?_dropWhile_some {p : Char → Bool} :
    ∀ {l : List Char} {c : Char},
      (l.dropWhile p).getLast? = some c → l.getLast? = some c := by
  intro l
  induction l with
  | nil =>
    intro c h
    simp at h
  | cons a r ih =>
    intro c h
    rw [List.dropWhile_cons] at h
    by_cases hp : p a = true
    · rw [if_pos hp] at h
      have hr := ih h
      cases r with
      | nil => simp at hr
      | cons b r2 => rw [List.getLast?_cons_cons]; exact hr
    · rwa [if_neg hp] at h

theorem head_dropAround_false {p : Char → Bool} {l : List Char} {c : Char}
    (h : (dropAround p l).head? = some c) : p c = false := by
  unfold dropAround at h
  rw [List.head?_reverse] at h
  have h2 := getLast?_dropWhile_some h
  rw [List.getLast?_reverse] at h2
  exact head_dropWhile_false h2

theorem getLast_dropAround_false {p : Char → Bool} {l : List Char} {c : Char}
    (h : (dropAround p l).getLast? = some c) : p c = false := by
  unfold dropAround at h
  rw [List.getLast?_reverse] at h
  exact head_dropWhile_false h

theorem chain'_dropWhile {R : Char → Char → Prop} {p : Char → Bool} :
    ∀ {l : List Char}, List.Chain' R l → List.Chain' R (l.dropWhile p) := by
  intro l
  induction l with
  | nil =>
    intro
    simp
  | cons a r ih =>
    intro h
    rw [List.dropWhile_cons]
    by_cases hp : p a = true
    · rw [if_pos hp]
      exact ih (List.chain'_cons'.mp h).2
    · rwa [if_neg hp]

theorem chain'_dropAround {R : Char → Char → Prop}
    (hsymm : ∀ a b, R a b → R b a) {p : Char → Bool} {l : List Char}
    (h : List.Chain' R l) : List.Chain' R (dropAround p l) := by
  unfold dropAround
  have e1 : List.Chain' R (l.dropWhile p) := chain'_dropWhile h
  have e2 : List.Chain' R (l.dropWhile p).reverse := by
    rw [List.chain'_reverse]
    exact e1.imp fun a b hab => hsymm a b hab
  have e3 : List.Chain' R ((l.dropWhile p).reverse.dropWhile p) := chain'_dropWhile e2
  rw [List.chain'_reverse]
  exact e3.imp fun a b hab => hsymm a b hab

/-- The ASCII-fragment normalization is idempotent: normalizing an
already-normalized topic changes nothing.  (Helper for the claim about
`_normalize_filename`, whose full statement over the extended character
model is settled below.) -/
theorem normalize_filename_idempotent (t : List Char) :
    normalize_filename (normalize_filename t) = normalize_filename t := by
  have hmem : ∀ c ∈ normalize_filename t, isWordChar c = true ∨ c = '-' := by
    intro c hc
    rw [normalize_filename] at hc
    rcases List.mem_map.mp hc with ⟨d, hd, rfl⟩
    have hd2 : d ∈ collapseUnderscores (subNonWord t) := mem_dropAround hd
    have hd3 : d ∈ subNonWord t := mem_collapseUnderscores hd2
    exact wordHyphen_pyLower (mem_subNonWord_wordHyphen hd3)
  have hsub : subNonWord (normalize_filename t) = normalize_filename t := by
    unfold subNonWord
    have := List.map_congr_left
      (f := fun c => if isWordChar c = true ∨ c = '-' then c else '_') (g := id)
      (l := normalize_filename t) (fun c hc => if_pos (hmem c hc))
    rw [this, List.map_id]
  have hchain :
      List.Chain' (fun a b => ¬(a = '_' ∧ b = '_')) (normalize_filename t) := by
    rw [normalize_filename, List.chain'_map]
    have hcy : List.Chain' (fun a b => ¬(a = '_' ∧ b = '_'))
        (dropAround (fun c => decide (c = '_')) (collapseUnderscores (subNonWord t))) :=
      chain'_dropAround (fun a b hab h2 => hab ⟨h2.2, h2.1⟩)
        (chain_collapseUnderscores _)
    exact hcy.imp fun a b hab h2 =>
      hab ⟨(pyLower_eq_underscore_iff a).mp h2.1, (pyLower_eq_underscore_iff b).mp h2.2⟩
  have hcol : collapseUnderscores (normalize_filename t) = normalize_filename t :=
    collapse_eq_self_of_chain hchain
  have hhead : ∀ c, (normalize_filename t).head? = some c →
      decide (c = '_') = false := by
    intro c hc
    rw [normalize_filename, List.head?_map] at hc
    cases hy : (dropAround (fun c => decide (c = '_'))
        (collapseUnderscores (subNonWord t))).head? with
    | none => rw [hy] at hc; simp at hc
    | some d =>
      rw [hy] at hc
      simp only [Option.map_some'] at hc
      cases hc
      have hd := head_dropAround_false hy
      simp only [decide_eq_false_iff_not] at hd ⊢
      intro hu
      exact hd ((pyLower_eq_underscore_iff d).mp hu)
  have hlast : ∀ c, (normalize_filename t).getLast? = some c →
      decide (c = '_') = false := by
    intro c hc
    rw [normalize_filename, List.getLast?_map] at hc
    cases hy : (dropAround (fun c => decide (c = '_'))
        (collapseUnderscores (subNonWord t))).getLast? with
    | none => rw [hy] at hc; simp at hc
    | some d =>
      rw [hy] at hc
      simp only [Option.map_some'] at hc
      cases hc
      have hd := getLast_dropAround_false hy
      simp only [decide_eq_false_iff_not] at hd ⊢
      intro hu
      exact hd ((pyLower_eq_underscore_iff d).mp hu)
  have hdrop : dropAround (fun c => decide (c = '_')) (normalize_filename t)
      = normalize_filename t := dropAround_eq_self hhead hlast
  have hmap : (normalize_filename t).map pyLower = normalize_filename t := by
    conv_lhs => rw [normalize_filename]
    rw [List.map_map]
    conv_rhs => rw [normalize_filename]
    exact List.map_congr_left fun d _ => pyLower_idem d
  calc normalize_filename (normalize_filename t)
      = (dropAround (fun c => decide (c = '_'))
          (collapseUnderscores (subNonWord (normalize_filename t)))).map pyLower := rfl
    _ = (dropAround (fun c => decide (c = '_'))
          (collapseUnderscores (normalize_filename t))).map pyLower := by rw [hsub]
    _ = (dropAround (fun c => decide (c = '_'))
          (normalize_filename t)).map pyLower := by rw [hcol]
    _ = (normalize_filename t).map pyLower := by rw [hdrop]
    _ = normalize_filename t := hmap

theorem chain'_map_mem {R S : Char → Char → Prop} {f : Char → Char} :
    ∀ {l : List Char}, (∀ a ∈ l, ∀ b ∈ l, R a b → S (f a) (f b)) →
      List.Chain' R l → List.Chain' S (l.map f) := by
  intro l
  induction l with
  | nil =>
    intro _ _
    simp
  | cons a rest ih =>
    intro hps h
    rw [List.map_cons, List.chain'_cons']
    constructor
    · intro y hy
      rw [List.head?_map] at hy
      cases hh : rest.head? with
      | none => rw [hh] at hy; simp at hy
      | some d =>
        rw [hh] at hy
        simp only [Option.map_some'] at hy
        cases hy
        have hd : d ∈ a :: rest :=
          List.mem_cons_of_mem a (List.mem_of_mem_head? (by rw [hh]; rfl))
        have hR : R a d := by
          have := (List.chain'_cons'.mp h).1
          exact this d hh
        exact hps a (List.mem_cons_self a rest) d hd hR
    · exact ih
        (fun x hx y hy => hps x (List.mem_cons_of_mem a hx) y (List.mem_cons_of_mem a hy))
        (List.chain'_cons'.mp h).2

/-- C8 counterexample: the filename stem of `save_audio` is not the cache-key
normalization.  For the topic of two letters separated by two spaces,
`save_audio` produces a double underscore while `_normalize_filename`
collapses the run to one. -/
theorem save_audio_stem_differs_from_cache_key :
    safe_topic "a  b".toList ≠ normalize_filename "a  b".toList := by
  decide

/-- C8 amended: `save_audio` only lower-cases the topic and maps spaces and
slashes to underscores, without replacing other special characters,
collapsing runs, or stripping edges; its filename stem coincides with the
cache-key normalization whenever the topic consists solely of ASCII letters
and digits separated by single interior spaces. -/
theorem save_audio_stem_eq_cache_key (topic : List Char)
    (h1 : ∀ c ∈ topic,
      ((65 ≤ c.toNat ∧ c.toNat ≤ 90) ∨ (97 ≤ c.toNat ∧ c.toNat ≤ 122) ∨
       (48 ≤ c.toNat ∧ c.toNat ≤ 57)) ∨ c = ' ')
    (h2 : List.Chain' (fun a b => ¬(a = ' ' ∧ b = ' ')) topic)
    (h3 : ∀ c, topic.head? = some c → c ≠ ' ')
    (h4 : ∀ c, topic.getLast? = some c → c ≠ ' ') :
    safe_topic topic = normalize_filename topic := by
  have hsp : (' ' : Char).toNat = 32 := rfl
  have hund : ('_' : Char).toNat = 95 := rfl
  -- Step A: on such topics the regex replacement is exactly space-to-underscore.
  have hA : subNonWord topic = topic.map fun c => if c = ' ' then '_' else c := by
    unfold subNonWord
    apply List.map_congr_left
    intro c hc
    rcases h1 c hc with hal | hsp2
    · have hw : isWordChar c = true ∨ c = '-' := by
        left
        simp only [isWordChar, decide_eq_true_eq]
        omega
      rw [if_pos hw, if_neg]
      rw [char_eq_iff_toNat, hsp]
      omega
    · rw [hsp2]
      decide
  -- Step B: no underscore run appears, so the collapse is the identity.
  have hB : collapseUnderscores (topic.map fun c => if c = ' ' then '_' else c)
      = topic.map fun c => if c = ' ' then '_' else c := by
    apply collapse_eq_self_of_chain
    apply chain'_map_mem (R := fun a b => ¬(a = ' ' ∧ b = ' ')) ?_ h2
    intro a ha b hb hR hcon
    apply hR
    constructor
    · by_cases hsa : a = ' '
      · exact hsa
      · exfalso
        rw [if_neg hsa] at hcon
        have ha2 := hcon.1
        rcases h1 a ha with hr | hr
        · rw [char_eq_iff_toNat, hund] at ha2
          rcases hr with hr | hr | hr <;> omega
        · exact hsa hr
    · by_cases hsb : b = ' '
      · exact hsb
      · exfalso
        rw [if_neg hsb] at hcon
        have hb2 := hcon.2
        rcases h1 b hb with hr | hr
        · rw [char_eq_iff_toNat, hund] at hb2
          rcases hr with hr | hr | hr <;> omega
        · exact hsb hr
  -- Step C: the edges carry no underscore, so the strip is the identity.
  have hC : dropAround (fun c => decide (c = '_'))
      (topic.map fun c => if c = ' ' then '_' else c)
      = topic.map fun c => if c = ' ' then '_' else c := by
    apply dropAround_eq_self
    · intro c hc
      rw [List.head?_map] at hc
      cases hh : topic.head? with
      | none => rw [hh] at hc; simp at hc
      | some d =>
        rw [hh] at hc
        simp only [Option.map_some'] at hc
        cases hc
        have hd : d ∈ topic := List.mem_of_mem_head? (by rw [hh]; rfl)
        have hds := h3 d hh
        rw [if_neg hds]
        simp only [decide_eq_false_iff_not]
        rcases h1 d hd with hr | hr
        · rw [char_eq_iff_toNat, hund]
          omega
        · exact absurd hr hds
    · intro c hc
      rw [List.getLast?_map] at hc
      cases hh : topic.getLast? with
      | none => rw [hh] at hc; simp at hc
      | some d =>
        rw [hh] at hc
        simp only [Option.map_some'] at hc
        cases hc
        have hd : d ∈ topic := List.mem_of_mem_getLast? hh
        have hds := h4 d hh
        rw [if_neg hds]
        simp only [decide_eq_false_iff_not]
        rcases h1 d hd with hr | hr
        · rw [char_eq_iff_toNat, hund]
          omega
        · exact absurd hr hds
  unfold safe_topic normalize_filename
  rw [hA, hB, hC, List.map_map, List.map_map, List.map_map]
  apply List.map_congr_left
  intro c hc
  simp only [Function.comp]
  rcases h1 c hc with hal | hsp2
  · have hc1 : ¬ c = ' ' := by
      rw [char_eq_iff_toNat, hsp]
      omega
    rw [if_neg hc1]
    have hpt := pyLower_toNat c
    have hp1 : ¬ pyLower c = ' ' := by
      rw [char_eq_iff_toNat, hsp, hpt]
      split_ifs <;> omega
    have hp2 : ¬ pyLower c = '/' := by
      rw [char_eq_iff_toNat, show ('/' : Char).toNat = 47 from rfl, hpt]
      split_ifs <;> omega
    rw [if_neg hp1, if_neg hp2]
  · rw [hsp2]
    decide

/-- C8 witness: on the movie-style topic of letters and single spaces the two
normalizations coincide. -/
theorem save_audio_stem_eq_cache_key_witness :
    safe_topic "Corn Bread 2".toList = normalize_filename "Corn Bread 2".toList :=
  save_audio_stem_eq_cache_key "Corn Bread 2".toList (by decide)
    (by
      rw [show ("Corn Bread 2".toList)
        = ['C', 'o', 'r', 'n', ' ', 'B', 'r', 'e', 'a', 'd', ' ', '2'] from rfl]
      simp only [List.chain'_cons, List.chain'_singleton]
      decide)
    (by intro c h; injection h with h1; rw [← h1]; decide)
    (by intro c h; simp only [show "Corn Bread 2".toList.getLast? = some '2' from rfl,
      Option.some.injEq] at h; rw [← h]; decide)

theorem summaryStep_other (filter : Option String) (acc : SummaryAcc) {e : Entry}
    (h1 : e.service ≠ "openai") (h2 : e.service ≠ "elevenlabs") :
    summaryStep filter acc e = acc := by
  unfold summaryStep
  split_ifs <;> rfl

theorem summaryLoop_append_other (filter : Option String) {e : Entry}
    (h1 : e.service ≠ "openai") (h2 : e.service ≠ "elevenlabs") :
    ∀ (log : List LogLine) (acc : SummaryAcc),
      summaryLoop filter acc (log ++ [.event e]) = summaryLoop filter acc log := by
  intro log
  induction log with
  | nil =>
    intro acc
    simp [summaryLoop, summaryStep_other filter acc h1 h2]
  | cons line rest ih =>
    intro acc
    cases line with
    | blank => simpa [summaryLoop] using ih acc
    | malformed raw => rfl
    | event e2 => simpa [summaryLoop] using ih (summaryStep filter acc e2)

/-- C10: an event whose service is neither "openai" nor "elevenlabs" is
excluded from every `get_usage_summary` total (appending it to any log leaves
the summary unchanged, under any context filter), while `get_usage_by_topic`
books its cost under the topic's `elevenlabs_cost` and `total_cost`; hence
for an event stream consisting of such an event with non-zero cost, the grand
total of the summary differs from the sum of per-topic total costs. -/
theorem usage_summary_excludes_other_services (e : Entry)
    (h1 : e.service ≠ "openai") (h2 : e.service ≠ "elevenlabs")
    (h3 : round4 (e.cost_usd.getD 0) ≠ 0)
    (filter : Option String) (log : List LogLine) :
    get_usage_summary filter (some (log ++ [.event e]))
      = get_usage_summary filter (some log) ∧
    get_usage_by_topic (some [.event e]) =
      .ok [(topicKey e,
        ⟨round4 0, round4 (e.cost_usd.getD 0), round4 (e.cost_usd.getD 0)⟩)] ∧
    (get_usage_summary none (some [.event e])).map (fun s => s.total_cost_usd) ≠
      (get_usage_by_topic (some [.event e])).map sumTopicTotals := by
  have hby : get_usage_by_topic (some [.event e]) =
      .ok [(topicKey e,
        ⟨round4 0, round4 (e.cost_usd.getD 0), round4 (e.cost_usd.getD 0)⟩)] := by
    simp only [get_usage_by_topic, topicLoop, topicStep, updateTopic, Except.map]
    rw [if_neg h1]
    simp
  refine ⟨?_, hby, ?_⟩
  · simp only [get_usage_summary]
    rw [summaryLoop_append_other filter h1 h2 log]
  · have hsum : get_usage_summary none (some [.event e]) =
        .ok ⟨0, round4 0, 0, 0, round4 0, 0, round4 (0 + 0)⟩ := by
      simp only [get_usage_summary, summaryLoop, summaryStep_other none _ h1 h2,
        Except.map]
    rw [hsum, hby]
    simp only [Except.map, sumTopicTotals, List.map_cons, List.map_nil, List.sum_cons,
      List.sum_nil, add_zero, zero_add, round4_zero]
    intro hEq
    injection hEq with hEq2
    exact h3 hEq2.symm

/-- C10 witness: a single event for service "grok" with cost 1 and topic
"cornbread" is invisible to the summary but contributes 1 to the by-topic
elevenlabs and total costs. -/
theorem usage_summary_excludes_other_services_witness :
    get_usage_summary none
        (some ([] ++ [.event ⟨"grok", none, none, some 1, some "production", some "cornbread"⟩]))
      = get_usage_summary none (some []) ∧
    get_usage_by_topic
        (some [.event ⟨"grok", none, none, some 1, some "production", some "cornbread"⟩]) =
      .ok [(topicKey ⟨"grok", none, none, some 1, some "production", some "cornbread"⟩,
        ⟨round4 0, round4 ((some (1 : ℚ)).getD 0), round4 ((some (1 : ℚ)).getD 0)⟩)] ∧
    (get_usage_summary none
        (some [.event ⟨"grok", none, none, some 1, some "production", some "cornbread"⟩])).map
        (fun s => s.total_cost_usd) ≠
      (get_usage_by_topic
        (some [.event ⟨"grok", none, none, some 1, some "production", some "cornbread"⟩])).map
        sumTopicTotals :=
  usage_summary_excludes_other_services _ (by decide) (by decide)
    (by norm_num [round4, roundHalfEven]) none []

theorem length_pyStrip_le (s : List Char) : (pyStrip s).length ≤ s.length := by
  unfold pyStrip dropAround
  calc ((s.dropWhile isSpace).reverse.dropWhile isSpace).reverse.length
      = ((s.dropWhile isSpace).reverse.dropWhile isSpace).length := List.length_reverse _
    _ ≤ (s.dropWhile isSpace).reverse.length := (List.dropWhile_sublist isSpace).length_le
    _ = (s.dropWhile isSpace).length := List.length_reverse _
    _ ≤ s.length := (List.dropWhile_sublist isSpace).length_le

theorem removeWs_dropWhile (s : List Char) :
    removeWs (s.dropWhile isSpace) = removeWs s := by
  induction s with
  | nil => rfl
  | cons a r ih =>
    rw [List.dropWhile_cons]
    by_cases ha : isSpace a = true
    · rw [if_pos ha, ih]
      unfold removeWs
      rw [List.filter_cons_of_neg (by simp [ha])]
    · rw [if_neg ha]

theorem removeWs_reverse (s : List Char) :
    removeWs s.reverse = (removeWs s).reverse :=
  List.filter_reverse _ s

theorem removeWs_pyStrip (s : List Char) : removeWs (pyStrip s) = removeWs s := by
  unfold pyStrip dropAround
  rw [removeWs_reverse, removeWs_dropWhile, removeWs_reverse, removeWs_dropWhile,
    List.reverse_reverse]

theorem removeWs_append (a b : List Char) :
    removeWs (a ++ b) = removeWs a ++ removeWs b :=
  List.filter_append a b

theorem take_append_drop_length (k : Nat) (l : List Char) :
    l.take k ++ l.drop (l.take k).length = l := by
  rw [List.length_take]
  by_cases h : k ≤ l.length
  · rw [Nat.min_eq_left h]
    exact List.take_append_drop k l
  · push_neg at h
    rw [Nat.min_eq_right (le_of_lt h), List.take_of_length_le (le_of_lt h),
      List.drop_length, List.append_nil]

theorem chunk_window_append_drop (rem : List Char) (cs : Nat) :
    chunk_window rem cs ++ rem.drop (chunk_window rem cs).length = rem := by
  unfold chunk_window
  split
  · exact take_append_drop_length _ rem
  · exact take_append_drop_length _ rem

theorem chunk_window_length_le (rem : List Char) (cs : Nat) (h : 0 < cs) :
    (chunk_window rem cs).length ≤ cs := by
  unfold chunk_window
  split
  · rename_i hgt
    have hsp := splitPoint_lt_length (rem.take cs)
    rw [List.length_take] at hsp
    rw [List.length_take]
    omega
  · rw [List.length_take]
    omega

theorem chunk_window_length_pos (rem : List Char) (cs : Nat)
    (h1 : 0 < cs) (h2 : cs < rem.length) :
    0 < (chunk_window rem cs).length := by
  unfold chunk_window
  split
  · rw [List.length_take]
    omega
  · rw [List.length_take]
    omega

theorem chunkLoop_content (cs : Nat) (hcs : 0 < cs) :
    ∀ (fuel : Nat) (rem : List Char), rem.length < fuel →
      ((chunkLoop cs fuel rem).map removeWs).flatten = removeWs rem := by
  intro fuel
  induction fuel with
  | zero =>
    intro rem h
    exact absurd h (Nat.not_lt_zero _)
  | succ fuel ih =>
    intro rem hlen
    cases rem with
    | nil => rfl
    | cons c rest =>
      show ((if (c :: rest).length ≤ cs then [c :: rest]
        else
          pyStrip (chunk_window (c :: rest) cs) ::
            chunkLoop cs fuel
              (pyStrip ((c :: rest).drop (chunk_window (c :: rest) cs).length))).map
          removeWs).flatten = removeWs (c :: rest)
      by_cases hle : (c :: rest).length ≤ cs
      · rw [if_pos hle, List.map_cons, List.map_nil, List.flatten_cons, List.flatten_nil,
          List.append_nil]
      · rw [if_neg hle, List.map_cons, List.flatten_cons]
        have hcl : 0 < (chunk_window (c :: rest) cs).length :=
          chunk_window_length_pos _ _ hcs (by omega)
        have hdl := List.length_drop (chunk_window (c :: rest) cs).length (c :: rest)
        have hp := length_pyStrip_le ((c :: rest).drop (chunk_window (c :: rest) cs).length)
        rw [ih _ (by omega), removeWs_pyStrip, removeWs_pyStrip, ← removeWs_append,
          chunk_window_append_drop]

theorem chunkLoop_length_bound (cs : Nat) (hcs : 0 < cs) :
    ∀ (fuel : Nat) (rem : List Char), rem.length < fuel →
      ∀ c ∈ chunkLoop cs fuel rem, c.length ≤ cs := by
  intro fuel
  induction fuel with
  | zero =>
    intro rem h
    exact absurd h (Nat.not_lt_zero _)
  | succ fuel ih =>
    intro rem hlen
    cases rem with
    | nil =>
      intro c hc
      simp [chunkLoop] at hc
    | cons a rest =>
      show ∀ c ∈ (if (a :: rest).length ≤ cs then [a :: rest]
        else
          pyStrip (chunk_window (a :: rest) cs) ::
            chunkLoop cs fuel
              (pyStrip ((a :: rest).drop (chunk_window (a :: rest) cs).length))),
        c.length ≤ cs
      by_cases hle : (a :: rest).length ≤ cs
      · rw [if_pos hle]
        intro c hc
        rcases List.mem_cons.mp hc with h | h
        · rw [h]; exact hle
        · simp at h
      · rw [if_neg hle]
        intro c hc
        rcases List.mem_cons.mp hc with h | h
        · rw [h]
          calc (pyStrip (chunk_window (a :: rest) cs)).length
              ≤ (chunk_window (a :: rest) cs).length := length_pyStrip_le _
            _ ≤ cs := chunk_window_length_le _ _ hcs
        · have hcl : 0 < (chunk_window (a :: rest) cs).length :=
            chunk_window_length_pos _ _ hcs (by omega)
          have hdl := List.length_drop (chunk_window (a :: rest) cs).length (a :: rest)
          have hp := length_pyStrip_le ((a :: rest).drop (chunk_window (a :: rest) cs).length)
          exact ih _ (by omega) c h

theorem removeWs_joinWithSpaces : ∀ L : List (List Char),
    removeWs (joinWithSpaces L) = (L.map removeWs).flatten := by
  intro L
  induction L with
  | nil => rfl
  | cons c rest ih =>
    cases rest with
    | nil =>
      rw [joinWithSpaces, List.map_cons, List.map_nil, List.flatten_cons,
        List.flatten_nil, List.append_nil]
    | cons d r =>
      show removeWs (c ++ ' ' :: joinWithSpaces (d :: r)) = _
      rw [removeWs_append, List.map_cons, List.flatten_cons,
        show removeWs (' ' :: joinWithSpaces (d :: r)) = removeWs (joinWithSpaces (d :: r))
          from rfl,
        ih]

/-- C3: chunking never loses, duplicates or reorders non-whitespace content:
joining the chunks with single spaces and deleting all whitespace yields the
original text with all whitespace deleted, for every text and every positive
chunk size. -/
theorem chunk_text_content_preservation (t : List Char) (cs : Nat) (h : 0 < cs) :
    removeWs (joinWithSpaces (chunk_text t cs)) = removeWs t := by
  rw [removeWs_joinWithSpaces]
  unfold chunk_text
  split
  · rw [List.map_cons, List.map_nil, List.flatten_cons, List.flatten_nil, List.append_nil]
  · exact chunkLoop_content cs h (t.length + 1) t (by omega)

/-- C3 witness: concrete content preservation across a multi-chunk split. -/
theorem chunk_text_content_preservation_witness :
    removeWs (joinWithSpaces (chunk_text "ab. cd. ef. gh".toList 8)) =
      removeWs "ab. cd. ef. gh".toList :=
  chunk_text_content_preservation "ab. cd. ef. gh".toList 8 (by decide)

/-- C6: every chunk produced by `chunk_text` (the last included) has length
at most the chunk size, and when the window's split point (last period-space
or newline) does not lie past the midpoint, the first chunk degrades to the
hard cut at `chunk_size` (stripped, as every emitted chunk is). -/
theorem chunk_text_size_bound (t : List Char) (cs : Nat) (h : 0 < cs) :
    ((chunk_text t cs).all fun c => c.length ≤ cs) = true ∧
    (cs < t.length → ¬(2 * splitPoint (t.take cs) > (cs : Int)) →
      (chunk_text t cs).head? = some (pyStrip (t.take cs))) := by
  constructor
  · rw [List.all_eq_true]
    intro c hc
    simp only [decide_eq_true_eq]
    unfold chunk_text at hc
    split at hc
    · rcases List.mem_cons.mp hc with h2 | h2
      · rw [h2]
        assumption
      · simp at h2
    · exact chunkLoop_length_bound cs h (t.length + 1) t (by omega) c hc
  · intro h1 h2
    unfold chunk_text
    rw [if_neg (by omega)]
    cases t with
    | nil => simp at h1
    | cons a rest =>
      show ((if (a :: rest).length ≤ cs then [a :: rest]
        else
          pyStrip (chunk_window (a :: rest) cs) ::
            chunkLoop cs (a :: rest).length
              (pyStrip ((a :: rest).drop (chunk_window (a :: rest) cs).length))) :
          List (List Char)).head? = _
      rw [if_neg (by omega), List.head?_cons]
      congr 1
      unfold chunk_window
      rw [if_neg h2]

/-- C6 witness: boundary-free text hard-cuts at the chunk size, and all
chunks respect the bound. -/
theorem chunk_text_size_bound_witness :
    ((chunk_text "abcdefg".toList 3).all fun c => c.length ≤ 3) = true ∧
    (3 < "abcdefg".toList.length → ¬(2 * splitPoint ("abcdefg".toList.take 3) > (3 : Int)) →
      (chunk_text "abcdefg".toList 3).head? = some (pyStrip ("abcdefg".toList.take 3))) :=
  chunk_text_size_bound "abcdefg".toList 3 (by decide)

theorem subNonWordU_eq_of_ascii (t : List Char) (h : ∀ c ∈ t, c.toNat < 128) :
    subNonWordU t = subNonWord t := by
  unfold subNonWordU subNonWord
  apply List.map_congr_left
  intro c hc
  have hcc := h c hc
  have he : isWordCharU c = isWordChar c := by
    unfold isWordCharU
    by_cases hw : isWordChar c = true
    · simp [hw]
    · simp [hw, show c.toNat ≠ 304 from by omega]
  rw [he]

theorem pyLowerStr_of_ne {c : Char} (h : c.toNat ≠ 304) :
    pyLowerStr c = [pyLower c] := by
  unfold pyLowerStr
  rw [if_neg h]

theorem flatMap_pyLowerStr_eq_map (l : List Char) (h : ∀ c ∈ l, c.toNat ≠ 304) :
    l.flatMap pyLowerStr = l.map pyLower := by
  induction l with
  | nil => rfl
  | cons a r ih =>
    have ha := h a (List.mem_cons_self a r)
    show pyLowerStr a ++ r.flatMap pyLowerStr = pyLower a :: r.map pyLower
    rw [pyLowerStr_of_ne ha, ih fun c hc => h c (List.mem_cons_of_mem a hc)]
    rfl

theorem ascii_of_mem_normalize (t : List Char) :
    ∀ c ∈ normalize_filename t, c.toNat < 128 := by
  intro c hc
  unfold normalize_filename at hc
  rcases List.mem_map.mp hc with ⟨d, hd, rfl⟩
  have hd3 : d ∈ subNonWord t := mem_collapseUnderscores (mem_dropAround hd)
  have hw := mem_subNonWord_wordHyphen hd3
  have hp := pyLower_toNat d
  rcases hw with hw | hw
  · simp only [isWordChar, decide_eq_true_eq] at hw
    split_ifs at hp <;> omega
  · rw [char_eq_iff_toNat, show ('-' : Char).toNat = 45 from rfl] at hw
    split_ifs at hp <;> omega

theorem normalize_filename_u_eq_of_ascii (t : List Char)
    (h : ∀ c ∈ t, c.toNat < 128) :
    normalize_filename_u t = normalize_filename t := by
  unfold normalize_filename_u normalize_filename
  rw [subNonWordU_eq_of_ascii t h]
  apply flatMap_pyLowerStr_eq_map
  intro c hc
  have hc3 : c ∈ subNonWord t := mem_collapseUnderscores (mem_dropAround hc)
  have hw := mem_subNonWord_wordHyphen hc3
  rcases hw with hw | hw
  · simp only [isWordChar, decide_eq_true_eq] at hw
    omega
  · rw [char_eq_iff_toNat, show ('-' : Char).toNat = 45 from rfl] at hw
    omega

/-- C9 counterexample: `_normalize_filename` is not idempotent.  For the
one-character topic U+0130 (LATIN CAPITAL LETTER I WITH DOT ABOVE), the
first pass keeps the letter (it matches `\w`) and `str.lower()` expands it
to `i` followed by U+0307 COMBINING DOT ABOVE; on the second pass the
combining mark is not a word character, becomes an underscore, and is
stripped, leaving plain `i`. -/
theorem normalize_filename_u_not_idempotent :
    normalize_filename_u (normalize_filename_u ['İ']) ≠ normalize_filename_u ['İ'] := by
  decide

/-- C9 amended: the topic normalization is a deterministic pure function of
the topic string, and it is idempotent on every topic consisting of ASCII
characters; full-Unicode idempotence fails because `str.lower` can expand
U+0130 into a letter plus a combining mark that the second pass replaces and
strips. -/
theorem normalize_filename_u_idempotent_of_ascii (t : List Char)
    (h : ∀ c ∈ t, c.toNat < 128) :
    normalize_filename_u (normalize_filename_u t) = normalize_filename_u t := by
  rw [normalize_filename_u_eq_of_ascii t h,
    normalize_filename_u_eq_of_ascii (normalize_filename t) (ascii_of_mem_normalize t),
    normalize_filename_idempotent t]

/-- C9 witness: a concrete ASCII topic on which normalization is idempotent. -/
theorem normalize_filename_u_idempotent_of_ascii_witness :
    ("  Corn Bread!".toList.all fun c => c.toNat < 128) = true ∧
    normalize_filename_u (normalize_filename_u "  Corn Bread!".toList)
      = normalize_filename_u "  Corn Bread!".toList :=
  ⟨by decide, normalize_filename_u_idempotent_of_ascii "  Corn Bread!".toList (by decide)⟩
